import Mathlib

/-! Shallow embedding of the concurrent Federal Register harvester of
ai-village-agents/claude-3-7-news-monitor: `parallel_register_miner.py`
(range parsing, backlog parse/render, URL-keyed merge, paginated range
fetcher, main pipeline) and `rate_limited_register_miner.py` (lenient
range parsing, exponential backoff with jitter, temp-file merge, exit
behaviour).  Python text is modelled as `List Char`; the Python string
operations the scripts use are reproduced on that representation.
Rationals stand in for Python floats in the backoff arithmetic. -/

namespace FRMiner

/-- Python strings are modelled as lists of characters. -/
abbrev Str := List Char

/-- Whitespace characters recognised by Python's `str.strip()` and
`str.split()` (the ASCII ones; the harvester's texts contain no other
whitespace). -/
def isPyWhitespace (c : Char) : Bool :=
  c = ' ' || c = '\t' || c = '\n' || c = '\r' || c = '\x0b' || c = '\x0c'

/-- Python `str.strip()`: drop leading and trailing whitespace. -/
def pstrip (s : Str) : Str :=
  ((s.dropWhile isPyWhitespace).reverse.dropWhile isPyWhitespace).reverse

/-- Python `str.split(sep)` for a one-character separator: split at every
occurrence, keeping empty pieces. -/
def psplitChar (sep : Char) (s : Str) : List Str :=
  s.splitOn sep

/-- Python `s.split(sep, 1)` for a one-character separator, reported as
`none` when the separator does not occur and otherwise as the pieces
before and after its first occurrence. -/
def pbreakAt (sep : Char) : Str → Option (Str × Str)
  | [] => none
  | c :: rest =>
    if c = sep then some ([], rest)
    else (pbreakAt sep rest).map (fun p => (c :: p.1, p.2))

/-- Auxiliary scanner for `psplitOnSub`; the separator is passed with its
head split off so that it is manifestly nonempty, and the scan is
structural on a fuel bounded below by the text length (each step consumes
at least one character, so the fuel never runs out at the call site). -/
def psplitOnSubGo (c₀ : Char) (sepRest : Str) : ℕ → Str → Str → List Str
  | _, [], acc => [acc.reverse]
  | 0, s, acc => [acc.reverse ++ s]
  | fuel + 1, c :: rest, acc =>
    if (c₀ :: sepRest).isPrefixOf (c :: rest) then
      acc.reverse :: psplitOnSubGo c₀ sepRest fuel (rest.drop sepRest.length) []
    else
      psplitOnSubGo c₀ sepRest fuel rest (c :: acc)

/-- Python `str.split(sep)` for a multi-character separator: split on
non-overlapping occurrences scanned left to right, keeping empty pieces.
(Python raises on an empty separator; that case is mapped to no split.) -/
def psplitOnSub (sep : Str) (s : Str) : List Str :=
  match sep with
  | [] => [s]
  | c₀ :: sepRest => psplitOnSubGo c₀ sepRest s.length s []

/-- Python `str.splitlines()` restricted to the `'\n'` line terminator
(the only one the harvester ever writes): like splitting on `'\n'`, but a
trailing newline yields no final empty line and an empty string yields no
lines. -/
def psplitlines (s : Str) : List Str :=
  if s = [] then []
  else
    let parts := s.splitOn '\n'
    match parts.getLast? with
    | some l => if l = [] then parts.dropLast else parts
    | none => parts

/-- Python `str.split()` with no argument: maximal runs of non-whitespace. -/
def pwords (s : Str) : List Str :=
  (s.splitOnP isPyWhitespace).filter (· ≠ [])

/-- Python `sep.join(xs)`. -/
def pjoin (sep : Str) (xs : List Str) : Str :=
  List.intercalate sep xs

/-- Test whether `sub` occurs anywhere in `s` (Python's `sub in s`). -/
def pcontainsSub (sub s : Str) : Bool :=
  s.tails.any sub.isPrefixOf

/-- Value of a string of decimal digits. -/
def digitsToNat (s : Str) : ℕ :=
  s.foldl (fun n c => n * 10 + (c.toNat - '0'.toNat)) 0

/-- Python `str.isdigit()` restricted to ASCII digits (the only digits the
Federal Register API sends). -/
def isDigitStr (s : Str) : Bool :=
  !s.isEmpty && s.all Char.isDigit

/-- Python `int(s)` on ordinary decimal literals: surrounding whitespace is
stripped, an optional single sign is allowed, and the remainder must be a
nonempty digit string.  (Underscore digit grouping is not modelled; the
miners' inputs are plain decimals.) -/
def pyIntOfStr (s : Str) : Option Int :=
  let t := pstrip s
  match t with
  | '+' :: ds =>
    if ds ≠ [] ∧ ds.all Char.isDigit then some ((digitsToNat ds : ℕ) : Int) else none
  | '-' :: ds =>
    if ds ≠ [] ∧ ds.all Char.isDigit then some (-((digitsToNat ds : ℕ) : Int)) else none
  | ds =>
    if ds ≠ [] ∧ ds.all Char.isDigit then some ((digitsToNat ds : ℕ) : Int) else none

/-- Decimal rendering of a natural number (Python `str(n)` / `f-string`). -/
def natToStr (n : ℕ) : Str :=
  Nat.toDigits 10 n

/-- Zero-pad to two digits (`strftime` `%m`, `%d`, `%H`, `%M`, `%S`). -/
def pad2 (n : ℕ) : Str :=
  if n < 10 then '0' :: natToStr n else natToStr n

/-- Zero-pad to four digits (`strftime` `%Y`). -/
def pad4 (n : ℕ) : Str :=
  List.replicate (4 - (natToStr n).length) '0' ++ natToStr n

/-- UTC timestamps at second precision, as Python `datetime` values flow
through the harvester (`strftime` truncates to seconds before anything is
persisted). -/
structure DateTime where
  year : ℕ
  month : ℕ
  day : ℕ
  hour : ℕ
  minute : ℕ
  second : ℕ
deriving DecidableEq

/-- Linear sort key; strictly monotone in the field-lexicographic order of
valid dates, so it induces exactly Python's `datetime` comparison. -/
def DateTime.key (d : DateTime) : ℕ :=
  ((((d.year * 13 + d.month) * 32 + d.day) * 24 + d.hour) * 60 + d.minute) * 60 + d.second

/-- Gregorian leap-year rule, as implemented by Python's `datetime`. -/
def isLeapYear (y : ℕ) : Bool :=
  (y % 4 = 0 && y % 100 ≠ 0) || y % 400 = 0

/-- Number of days of a month, as validated by Python's `datetime`. -/
def daysInMonth (y m : ℕ) : ℕ :=
  if m = 2 then (if isLeapYear y then 29 else 28)
  else if m = 4 ∨ m = 6 ∨ m = 9 ∨ m = 11 then 30
  else 31

/-- Parse the canonical backlog timestamp `YYYY-MM-DD HH:MM:SSZ`
(`datetime.strptime` with the miner's format string, on the zero-padded
form the miner itself writes; strptime's tolerance for unpadded fields is
not modelled). -/
def parseTimestamp (s : Str) : Option DateTime :=
  match s with
  | [y1, y2, y3, y4, '-', m1, m2, '-', d1, d2, ' ',
     h1, h2, ':', n1, n2, ':', s1, s2, 'Z'] =>
    if ([y1, y2, y3, y4, m1, m2, d1, d2, h1, h2, n1, n2, s1, s2].all Char.isDigit) then
      let y := digitsToNat [y1, y2, y3, y4]
      let mo := digitsToNat [m1, m2]
      let d := digitsToNat [d1, d2]
      let h := digitsToNat [h1, h2]
      let mi := digitsToNat [n1, n2]
      let sec := digitsToNat [s1, s2]
      if 1 ≤ mo ∧ mo ≤ 12 ∧ 1 ≤ d ∧ d ≤ daysInMonth y mo ∧ h ≤ 23 ∧ mi ≤ 59 ∧ sec ≤ 59 then
        some ⟨y, mo, d, h, mi, sec⟩
      else none
    else none
  | _ => none

/-- Render a timestamp as `strftime` with the miner's display format
`YYYY-MM-DD HH:MM:SSZ` does. -/
def formatTimestamp (d : DateTime) : Str :=
  pad4 d.year ++ ('-' :: pad2 d.month) ++ ('-' :: pad2 d.day) ++
    (' ' :: pad2 d.hour) ++ (':' :: pad2 d.minute) ++ (':' :: pad2 d.second) ++ ['Z']

/-! Constants of `parallel_register_miner.py`. -/

/-- SEPARATOR_LINE: the 80-dash divider between backlog blocks. -/
def SEPARATOR_LINE : Str := List.replicate 80 '-'

/-- Bar of 80 equals signs used by the backlog header. -/
def headerBar : Str := List.replicate 80 '='

/-- DEFAULT_TAG of the parallel miner. -/
def DEFAULT_TAG : Str := ("[FEDERAL REGISTER INDEX]").toList

/-- PAGE_SIZE_CAP of the parallel miner. -/
def PAGE_SIZE_CAP : ℕ := 1000

/-- Backlog entry dictionaries, as built by `load_existing_entries` and
`load_thread_results` (every key those functions set is a field here). -/
structure Entry where
  title : Str
  source : Str
  url : Str
  summary : Str
  datetime : DateTime
  displayTimestamp : Str
  batchMarker : Option Str
  tag : Str
deriving DecidableEq

/-- Embedding of `_parse_tag_line`: split the headline at the first pipe,
then split the stripped left side at the first space into tag and
timestamp (requiring both parts), stripping every part. -/
def parseTagLine (line : Str) : Option (Str × Str × Str) :=
  match pbreakAt '|' line with
  | none => none
  | some (lhs, rest) =>
    let title := pstrip rest
    match pbreakAt ' ' (pstrip lhs) with
    | none => none
    | some (tagPart, tsPart) => some (pstrip tagPart, pstrip tsPart, title)

/-- Default source label used when a backlog block has no usable
Source line. -/
def defaultSource : Str := ("Federal Register").toList

/-- Text after the first colon of a line, stripped (Python
`line.split(":", 1)[1].strip()`; callers only use it on lines that do
contain a colon). -/
def afterColonStripped (line : Str) : Str :=
  pstrip (((pbreakAt ':' line).map Prod.snd).getD [])

/-- Embedding of the line scan inside `load_existing_entries`: walk the
lines after the headline, recording the latest Source and Batch File
values, and stop at the first URL line, whose remaining lines become the
summary.  Returns `none` when no URL line occurs or its URL is empty
(Python leaves `url` falsy and skips the block). -/
def scanEntryLines : List Str → Str → Option Str → Option (Str × Option Str × Str × List Str)
  | [], _, _ => none
  | line :: rest, source, batch =>
    if ("Source: ").toList.isPrefixOf line then
      let v := afterColonStripped line
      scanEntryLines rest (if v = [] then defaultSource else v) batch
    else if ("Batch File: ").toList.isPrefixOf line then
      let v := afterColonStripped line
      scanEntryLines rest source (if v = [] then none else some v)
    else if ("URL: ").toList.isPrefixOf line then
      let u := afterColonStripped line
      if u = [] then none else some (source, batch, u, rest)
    else
      scanEntryLines rest source batch

/-- Result triple of `load_existing_entries`: structured entries, the set
of their URLs (as a duplicate-free list), and the tag default. -/
structure LoadResult where
  entries : List Entry
  urls : List Str
  tagDefault : Str
deriving DecidableEq

/-- Insert a URL into the seen set (Python `set.add`). -/
def insertUrl (urls : List Str) (u : Str) : List Str :=
  if u ∈ urls then urls else urls ++ [u]

/-- Embedding of the per-block body of `load_existing_entries`: strip the
block, keep its stripped nonempty lines, parse the headline into tag,
timestamp and title (updating the tag default as soon as a tag parses),
parse the timestamp, scan for Source, Batch File and URL lines, and build
the entry; any failure skips the block. -/
def loadFoldBlock (st : LoadResult) (block : Str) : LoadResult :=
  let lines := ((psplitlines (pstrip block)).map pstrip).filter (· ≠ [])
  match lines with
  | [] => st
  | first :: rest =>
    match parseTagLine first with
    | none => st
    | some (tag, ts, title) =>
      let st := { st with tagDefault := tag }
      match parseTimestamp ts with
      | none => st
      | some dt =>
        match scanEntryLines rest defaultSource none with
        | none => st
        | some (source, batch, url, summaryLines) =>
          let summary := pstrip (pjoin ['\n'] summaryLines)
          let e : Entry := ⟨title, source, url, summary, dt, ts, batch, tag⟩
          { st with entries := st.entries ++ [e], urls := insertUrl st.urls url }

/-- Embedding of `load_existing_entries`: a missing file gives the empty
backlog; otherwise the raw text is split on the 80-dash divider and each
block is parsed leniently.  (The read-error fallback, which also degrades
to the empty backlog, is not modelled separately.) -/
def loadExistingEntries (content : Option Str) : LoadResult :=
  match content with
  | none => ⟨[], [], DEFAULT_TAG⟩
  | some raw => (psplitOnSub SEPARATOR_LINE raw).foldl loadFoldBlock ⟨[], [], DEFAULT_TAG⟩

/-- Placeholder summary used by `sanitize_summary`. -/
def placeholderSummary : Str :=
  ("Federal Register notice with no supplied summary.").toList

/-- Embedding of `sanitize_summary`: collapse whitespace runs to single
spaces; an empty (or all-whitespace) text becomes the placeholder. -/
def sanitizeSummary (text : Str) : Str :=
  if text = [] then placeholderSummary
  else
    let collapsed := pjoin ([' ']) (pwords text)
    if collapsed = [] then placeholderSummary else collapsed

/-- Stable descending insertion by timestamp key: the new element goes
after every element whose key is at least as large, reproducing Python's
stable `list.sort(key=datetime, reverse=True)`. -/
def insertDescBy (x : Entry) : List Entry → List Entry
  | [] => [x]
  | y :: ys => if x.datetime.key ≤ y.datetime.key then y :: insertDescBy x ys else x :: y :: ys

/-- Stable sort of entries by timestamp, newest first. -/
def sortEntriesDesc (l : List Entry) : List Entry :=
  l.foldl (fun acc x => insertDescBy x acc) []

/-- Lines of one rendered backlog block (the `entry_lines` list of
`format_backlog`): headline, Source line, optional Batch File line, URL
line, and the stripped summary when nonempty. -/
def entryLines (tag : Str) (e : Entry) : List Str :=
  let displayTs := if e.displayTimestamp = [] then formatTimestamp e.datetime else e.displayTimestamp
  let tagValue := e.tag
  let headline := tagValue ++ (' ' :: displayTs) ++ (' ' :: '|' :: ' ' :: e.title)
  let base := [headline, ("Source: ").toList ++ e.source]
  let withBatch :=
    match e.batchMarker with
    | some b => if b ≠ [] then base ++ [("Batch File: ").toList ++ b] else base
    | none => base
  let withUrl := withBatch ++ [("URL: ").toList ++ e.url]
  let summary := pstrip e.summary
  if summary ≠ [] then withUrl ++ [summary] else withUrl

/-- Header line reporting the item count. -/
def headerCountLine (n : ℕ) : Str :=
  ("Federal Register Historical Backlog (").toList ++ natToStr n ++ (" items)").toList

/-- Text rendered for an empty backlog. -/
def emptyBacklogText : Str :=
  pjoin ['\n']
    [headerBar, headerCountLine 0, headerBar, [],
     ("No Federal Register index range results were available.").toList, []]

/-- Embedding of `format_backlog`: sort newest first, emit the header
(bar, count line, bar, blank), then each entry's lines followed by the
divider, dropping the final divider, and join with newlines plus a
trailing newline.  An empty collection renders the fixed empty-backlog
text. -/
def formatBacklog (items : List Entry) (tag : Str) : Str :=
  if items = [] then emptyBacklogText
  else
    let payload := sortEntriesDesc items
    let header := [headerBar, headerCountLine payload.length, headerBar, ([] : Str)]
    let body := payload.foldl (fun acc e => acc ++ entryLines tag e ++ [SEPARATOR_LINE]) []
    let body := if body ≠ [] ∧ body.getLast? = some SEPARATOR_LINE then body.dropLast else body
    pjoin ['\n'] (header ++ body) ++ ['\n']

/-! Embedding of `merge_entries`.  Python's `combined` dict is modelled as
an association list in key-insertion order: assigning to a present key
updates the value in place, assigning to an absent key appends. -/

/-- Association-list model of the `combined` dictionary. -/
abbrev Dict := List (Str × Entry)

/-- Key membership (Python `url in combined`). -/
def dictHasKey (m : Dict) (k : Str) : Bool :=
  m.any (fun p => p.1 == k)

/-- Assignment `combined[url] = entry`: update in place when the key is
present, append otherwise. -/
def dictSet (m : Dict) (k : Str) (v : Entry) : Dict :=
  if dictHasKey m k then m.map (fun p => if p.1 == k then (k, v) else p)
  else m ++ [(k, v)]

/-- Body of the first loop of `merge_entries`: index an existing entry by
its URL, skipping entries with an empty URL. -/
def mergeExistingStep (m : Dict) (e : Entry) : Dict :=
  if e.url ≠ [] then dictSet m e.url e else m

/-- First loop of `merge_entries` over the existing entries. -/
def mergeDictExisting (existing : List Entry) : Dict :=
  existing.foldl mergeExistingStep []

/-- Body of the second loop of `merge_entries`: a new entry is skipped
when its URL is empty or already a key; otherwise the absent-key dict
assignment appends it. -/
def mergeNewStep (m : Dict) (e : Entry) : Dict :=
  if e.url = [] ∨ dictHasKey m e.url then m else m ++ [(e.url, e)]

/-- Second loop of `merge_entries` over the new entries. -/
def mergeDictNew (m : Dict) (newEntries : List Entry) : Dict :=
  newEntries.foldl mergeNewStep m

/-- Embedding of `merge_entries`: combine existing and new entries keyed
by URL (existing wins), then sort the dict's values newest first. -/
def mergeEntries (existing newEntries : List Entry) : List Entry :=
  let combined := mergeDictNew (mergeDictExisting existing) newEntries
  sortEntriesDesc (combined.map Prod.snd)

/-! Embedding of `process_range`.  The remote fetch is modelled as a pure
function from page number to the list of parsed items on that page (the
`fetch_page` plus `monitor.parse` pipeline); an empty list models a page
with no results.  This matches the claims' reading, in which the remote
dataset is unchanged and fetches do not raise, so the exception branch of
the Python loop is never taken. -/

/-- Parsed item as produced by the monitor collaborator (`NewsItem`). -/
structure Item where
  title : Str
  source : Str
  url : Str
  content : Str
  date : DateTime
deriving DecidableEq

instance : Inhabited Item := ⟨⟨[], [], [], [], ⟨1970, 1, 1, 0, 0, 0⟩⟩⟩

/-- Record persisted by a worker for one accepted item (the dict written
to the range's temporary JSON file; `iso_timestamp` round-trips through
JSON at second precision, so the timestamp is kept structured). -/
structure NewRecord where
  title : Str
  source : Str
  url : Str
  summary : Str
  date : DateTime
  rangeLabel : Str
deriving DecidableEq

/-- Provenance label `indices start-end` of a range's records. -/
def rangeLabel (startOff endOff : ℕ) : Str :=
  ("indices ").toList ++ natToStr startOff ++ ('-' :: natToStr endOff)

/-- State threaded through the fetch loop of `process_range`.  `covered`
is ghost instrumentation recording, for every consumed global index, the
page it was read from and its position inside that page; it affects
nothing else. -/
structure RangeState where
  current : ℕ
  seen : List Str
  entries : List NewRecord
  covered : List (ℕ × ℕ × ℕ)
deriving DecidableEq

/-- Body of the inner item loop of `process_range` (lines 344-362) for
the in-page position `startIndex + k`: record coverage for the consumed
global index, then append a record exactly when the item's URL has not
been seen (atomic check-and-insert on the shared set). -/
def takeStep (items : List Item) (startIndex page pageStart startOff endOff : ℕ)
    (s : RangeState) (k : ℕ) : RangeState :=
  let idx := startIndex + k
  let item := items.getD idx default
  let s := { s with covered := s.covered ++ [(pageStart + idx, page, idx)] }
  if item.url ∈ s.seen then s
  else
    { s with
      seen := s.seen ++ [item.url],
      entries := s.entries ++
        [⟨item.title, item.source, item.url, sanitizeSummary item.content,
          item.date, rangeLabel startOff endOff⟩] }

/-- Inner item loop of `process_range`: consume `takeCount` items
starting at `startIndex`. -/
def takeLoop (items : List Item) (startIndex takeCount page pageStart startOff endOff : ℕ)
    (s : RangeState) : RangeState :=
  (List.range takeCount).foldl (takeStep items startIndex page pageStart startOff endOff) s

/-- Fetch loop of `process_range`, with explicit fuel.  Each executed
iteration advances `current` by at least one, so fuel `end + 1 - start`
(supplied by `processRange`) always suffices; running out of fuel can
only happen once `current` exceeds `endOff`, where the loop guard would
stop anyway.  The branch for a take count of zero mirrors the Python
`break`; the post-loop `current_offset` adjustment for that case (lines
366-367) is unreachable and not modelled. -/
def processLoop (pageItems : ℕ → List Item) (pageSize endOff startOff : ℕ) :
    ℕ → RangeState → RangeState
  | 0, s => s
  | fuel + 1, s =>
    if s.current > endOff then s
    else
      let page := s.current / pageSize + 1
      let pageStart := (page - 1) * pageSize
      let items := pageItems page
      if items.length = 0 then s
      else
        let startIndex := max 0 (s.current - pageStart)
        if startIndex ≥ items.length then
          let s := { s with current := pageStart + items.length }
          if items.length < pageSize then s
          else processLoop pageItems pageSize endOff startOff fuel s
        else
          let remaining := endOff - s.current + 1
          let available := items.length - startIndex
          let takeCount := min available remaining
          if takeCount = 0 then s
          else
            let s := takeLoop items startIndex takeCount page pageStart startOff endOff s
            let s := { s with current := s.current + takeCount }
            if items.length < pageSize then s
            else processLoop pageItems pageSize endOff startOff fuel s

/-- Embedding of `process_range` for a non-negative index range (the
spec's Index Range domain): clamp the page size to `[1, PAGE_SIZE_CAP]`
and run the fetch loop from the range start. -/
def processRange (pageItems : ℕ → List Item) (indexRange : ℕ × ℕ) (batchSize : ℕ)
    (seen : List Str) : RangeState :=
  let pageSize := max 1 (min batchSize PAGE_SIZE_CAP)
  processLoop pageItems pageSize indexRange.2 indexRange.1
    (indexRange.2 + 1 - indexRange.1) ⟨indexRange.1, seen, [], []⟩

/-- Embedding of `load_thread_results`: turn each persisted worker record
back into a backlog entry dict — display timestamp from `strftime`, batch
marker from the range label, tag from the caller.  (The JSON round trip
is the identity on these fields; every record carries a valid timestamp
by construction, so the skip branches for missing or malformed
timestamps are not taken.) -/
def loadThreadResults (recordLists : List (List NewRecord)) (tag : Str) : List Entry :=
  (recordLists.flatten).map
    (fun r => ⟨r.title, r.source, r.url, r.summary, r.date, formatTimestamp r.date,
               some r.rangeLabel, tag⟩)

/-! Embedding of `parse_index_ranges` (parallel miner) and of `main`. -/

/-- Errors raised by `parse_index_ranges` (Python `ValueError`s, carried
as structured data rather than message strings). -/
inductive RangeErr
  | invalidRange (token : Str)
  | invalidIndex (token : Str)
  | inverted (startVal endVal : Int) (token : Str)
  | noValid
deriving DecidableEq

/-- Loop of `parse_index_ranges`: strip each comma-separated token, skip
empty tokens, parse `start-end` pairs (or bare integers as singleton
ranges), and raise on the first malformed or inverted token; raise
`noValid` when nothing was parsed. -/
def parseIndexRangesAux : List Str → List (Int × Int) → Except RangeErr (List (Int × Int))
  | [], acc => if acc = [] then .error .noValid else .ok acc
  | part :: rest, acc =>
    let token := pstrip part
    if token = [] then parseIndexRangesAux rest acc
    else if '-' ∈ token then
      match pbreakAt '-' token with
      | none => .error (.invalidRange token)
      | some (startRaw, endRaw) =>
        match pyIntOfStr startRaw, pyIntOfStr endRaw with
        | some s, some e =>
          if s > e then .error (.inverted s e token)
          else parseIndexRangesAux rest (acc ++ [(s, e)])
        | _, _ => .error (.invalidRange token)
    else
      match pyIntOfStr token with
      | some v => parseIndexRangesAux rest (acc ++ [(v, v)])
      | none => .error (.invalidIndex token)

/-- Embedding of `parse_index_ranges`. -/
def parseIndexRanges (ranges : Str) : Except RangeErr (List (Int × Int)) :=
  parseIndexRangesAux (ranges.splitOn ',') []

instance {ε α : Type} [DecidableEq ε] [DecidableEq α] : DecidableEq (Except ε α) := fun a b =>
  match a, b with
  | .ok x, .ok y => if h : x = y then isTrue (by rw [h]) else isFalse (by simp [h])
  | .error x, .error y => if h : x = y then isTrue (by rw [h]) else isFalse (by simp [h])
  | .ok _, .error _ => isFalse (by simp)
  | .error _, .ok _ => isFalse (by simp)

/-- Outcome of one run of the parallel miner's `main`: the backlog file
content afterwards (`none` when the file does not exist) and the process
exit code.  Python's `main` returns `None` on every path — including the
logged error paths — so the process exit code is 0 on every path. -/
structure MainResult where
  content : Option Str
  exitCode : ℕ
deriving DecidableEq

/-- Embedding of the parallel miner's `main` with the fetch modelled as a
pure page function: parse ranges (log and return on error), validate
thread count and batch size (log and return), load the existing backlog,
pre-seed the seen set, process each range (dispatch sequentialised in
range order — exact for single-range runs, one legal interleaving
otherwise), collect worker records, merge, render, and write.  `writeOk`
models whether `write_text` succeeds; on failure the error is logged and
`main` returns with the file unchanged.  Negative range bounds are
clamped at zero (the spec's Index Range domain is non-negative). -/
def runMain (pageItems : ℕ → List Item) (rangesStr : Str) (numThreads batchSize : Int)
    (writeOk : Bool) (content₀ : Option Str) : MainResult :=
  match parseIndexRanges rangesStr with
  | .error _ => ⟨content₀, 0⟩
  | .ok ranges =>
    if numThreads ≤ 0 then ⟨content₀, 0⟩
    else if batchSize ≤ 0 then ⟨content₀, 0⟩
    else
      let loaded := loadExistingEntries content₀
      let tag := if loaded.tagDefault = [] then DEFAULT_TAG else loaded.tagDefault
      let step := ranges.foldl
        (fun (acc : List (List NewRecord) × List Str) r =>
          let st := processRange pageItems (r.1.toNat, r.2.toNat) batchSize.toNat acc.2
          (acc.1 ++ [st.entries], st.seen))
        ([], loaded.urls)
      let newEntries := loadThreadResults step.1 tag
      let merged := mergeEntries loaded.entries newEntries
      let text := formatBacklog merged tag
      if writeOk then ⟨some text, 0⟩ else ⟨content₀, 0⟩

/-! Embedding of `rate_limited_register_miner.py`: `parse_range`,
`parse_date_range`, the merge of temporary files, and the exit behaviour
of its `main`. -/

/-- Validity of one comma-separated segment for `parse_range`: it must
contain a separator, split on every dash into exactly two parts, both
parts must parse as integers, and the range must not be inverted; any
failure means the segment is skipped with a warning. -/
def parseRLSegment (part : Str) : Option (Int × Int) :=
  if ¬ ('-' ∈ part) then none
  else
    match part.splitOn '-' with
    | [startRaw, endRaw] =>
      match pyIntOfStr startRaw, pyIntOfStr endRaw with
      | some s, some e => if s > e then none else some (s, e)
      | _, _ => none
    | _ => none

/-- Embedding of `parse_range`: collect the valid segments in order,
skipping invalid ones. -/
def parseRangeRL (rangeStr : Str) : List (Int × Int) :=
  (rangeStr.splitOn ',').foldl
    (fun acc part =>
      match parseRLSegment part with
      | some r => acc ++ [r]
      | none => acc)
    []

/-- Parse one `YYYY-MM-DD` date (`strptime` on the zero-padded form). -/
def parseDate (s : Str) : Option DateTime :=
  match s with
  | [y1, y2, y3, y4, '-', m1, m2, '-', d1, d2] =>
    if ([y1, y2, y3, y4, m1, m2, d1, d2].all Char.isDigit) then
      let y := digitsToNat [y1, y2, y3, y4]
      let mo := digitsToNat [m1, m2]
      let d := digitsToNat [d1, d2]
      if 1 ≤ mo ∧ mo ≤ 12 ∧ 1 ≤ d ∧ d ≤ daysInMonth y mo then
        some ⟨y, mo, d, 0, 0, 0⟩
      else none
    else none
  | _ => none

/-- Embedding of `parse_date_range`: exactly two comma-separated
`YYYY-MM-DD` dates, both within 2020-01-01 .. 2023-12-31 and in order. -/
def parseDateRangeRL (rangeStr : Str) : Option (DateTime × DateTime) :=
  match (rangeStr.splitOn ',').map pstrip with
  | [p1, p2] =>
    match parseDate p1, parseDate p2 with
    | some startDate, some endDate =>
      if startDate.key < (DateTime.mk 2020 1 1 0 0 0).key then none
      else if endDate.key > (DateTime.mk 2023 12 31 23 59 59).key then none
      else if startDate.key > endDate.key then none
      else some (startDate, endDate)
    | _, _ => none
  | _ => none

/-- Exit code of the rate-limited miner's `main`: `sys.exit(1)` when no
valid page ranges were parsed, `sys.exit(1)` when a supplied date range
is invalid, and otherwise an uncaught exception (nonzero exit, modelled
as 1) exactly when a nonempty batch of new items is to be written and the
output write raises; every other path ends the process with code 0.
`hasNewItems` models whether `merge_temp_files` found new items (it only
opens the output file for writing in that case); `writeOk` models whether
that write succeeds. -/
def rateMainExit (pageRanges : Str) (dateRangeArg : Option Str)
    (hasNewItems writeOk : Bool) : ℕ :=
  if parseRangeRL pageRanges = [] then 1
  else
    match dateRangeArg with
    | some ds =>
      match parseDateRangeRL ds with
      | none => 1
      | some _ => if hasNewItems ∧ ¬ writeOk then 1 else 0
    | none => if hasNewItems ∧ ¬ writeOk then 1 else 0

/-! Embedding of `merge_temp_files` (rate-limited miner).  The regex
lookups are modelled for occurrences anchored where this program writes
them: a `URL: ` match captures the rest of its line after the first
occurrence, and the headline pattern is matched from the opening bracket
with the lazy groups stopping at the first closing bracket / pipe, which
is exact for the blocks `process_page_range` emits. -/

/-- Text after the first occurrence of `sub` (scanning left to right),
`none` when `sub` does not occur (models a regex match of `sub(.*)$`
restricted to one line). -/
def findAfterSub (sub : Str) : Str → Option Str
  | [] => none
  | c :: rest =>
    if sub.isPrefixOf (c :: rest) then some ((c :: rest).drop sub.length)
    else findAfterSub sub rest

/-- URL extracted from a block by the regex search for a `URL: ` line:
first line containing the marker, rest of that line, stripped; empty when
absent. -/
def blockUrl (block : Str) : Str :=
  match (psplitlines block).filterMap (findAfterSub (("URL: ").toList)) with
  | [] => []
  | u :: _ => pstrip u

/-- Headline title matcher at a position starting with an opening
bracket: bracketed tag (to the first closing bracket), a space, a
`dddd-dd-dd` date, anything up to the first pipe, a space, then the rest
of the line is the captured title. -/
def titleAt (s : Str) : Option Str :=
  match s with
  | '[' :: rest =>
    match pbreakAt ']' rest with
    | none => none
    | some (_, after) =>
      match after with
      | ' ' :: d1 :: d2 :: d3 :: d4 :: '-' :: e1 :: e2 :: '-' :: f1 :: f2 :: tail =>
        if ([d1, d2, d3, d4, e1, e2, f1, f2].all Char.isDigit) then
          match pbreakAt '|' tail with
          | none => none
          | some (_, afterBar) =>
            match afterBar with
            | ' ' :: captured => some captured
            | _ => none
        else none
      | _ => none
  | _ => none

/-- Scan a line left to right for the headline pattern. -/
def titleSearchLine : Str → Option Str
  | [] => none
  | c :: rest =>
    match (if c = '[' then titleAt (c :: rest) else none) with
    | some t => some t
    | none => titleSearchLine rest

/-- Title extracted from a block by the headline regex: first matching
line, captured group, stripped; empty when absent. -/
def blockTitle (block : Str) : Str :=
  match (psplitlines block).filterMap titleSearchLine with
  | [] => []
  | t :: _ => pstrip t

/-- Accumulator of `merge_temp_files`: accepted blocks plus the growing
URL and title sets. -/
structure MergeTempState where
  newItems : List Str
  existingUrls : List Str
  existingTitles : List Str
deriving DecidableEq

/-- Per-block body of `merge_temp_files`: skip blank blocks; otherwise a
block is accepted exactly when its URL is nonempty and unseen AND its
title is nonempty and unseen, and acceptance adds both to the seen
sets. -/
def mergeTempBlockStep (st : MergeTempState) (block : Str) : MergeTempState :=
  if pstrip block = [] then st
  else
    let url := blockUrl block
    let title := blockTitle block
    if url ≠ [] ∧ url ∉ st.existingUrls ∧ title ≠ [] ∧ title ∉ st.existingTitles then
      ⟨st.newItems ++ [block], st.existingUrls ++ [url], st.existingTitles ++ [title]⟩
    else st

/-- Embedding of the selection phase of `merge_temp_files`: seed the URL
set from the existing output's `URL: ` lines and the title set from the
published titles, then fold the accepted-block test over every block of
every temporary file.  (The subsequent text assembly writes exactly
`newItems` into the output and returns their count; it is not needed by
the claims.) -/
def mergeTempFiles (tempContents : List Str) (existingContent : Str)
    (existingTitles : List Str) : MergeTempState :=
  let existingUrls :=
    ((psplitlines existingContent).filterMap (findAfterSub (("URL: ").toList))).map pstrip
  tempContents.foldl
    (fun st content => (psplitOnSub SEPARATOR_LINE content).foldl mergeTempBlockStep st)
    ⟨[], existingUrls, existingTitles⟩

/-! Embedding of `request_with_backoff` (rate-limited miner).  Delays are
rationals (Python floats); the jitter draws are an explicit stream. -/

/-- Outcome of one HTTP attempt as the loop observes it: a successful
JSON payload (abstracted to a number), a 429 with an optional Retry-After
header value, or a raised exception whose text may mention 429
(`raise_for_status` errors and transport errors both surface here). -/
inductive AttemptResult
  | success (payload : ℕ)
  | status429 (retryAfter : Option Str)
  | raised (msgHas429 : Bool)
deriving DecidableEq

/-- Backoff delay update of the loop: `min(max_delay, delay * 2 * jitter)`
(lines 92, 109 and 117 — the 429-exception branch and the transient-error
branch use the same formula and share the same delay state). -/
def nextBackoffDelay (maxDelay delay jitter : ℚ) : ℚ :=
  min maxDelay (delay * 2 * jitter)

/-- Embedding of `request_with_backoff` over an explicit stream of
attempt outcomes (one per loop iteration) and jitter draws: returns the
result — `Except.error` models the raised exception — together with the
trace of sleeps performed, in order.  On a 429 past the retry cap the
loop raises; on a 429 with an all-digit Retry-After value the delay is
set to exactly that value (uncapped) and slept; otherwise the
exponential-backoff formula is applied and slept.  An exhausted outcome
stream (never the case for a real server) also maps to an error. -/
def requestWithBackoff (maxRetries : ℕ) (maxDelay : ℚ) (jitters : ℕ → ℚ) :
    List AttemptResult → ℕ → ℚ → ℕ → (Except Unit ℕ × List ℚ)
  | [], _, _, _ => (.error (), [])
  | a :: rest, retries, delay, jIdx =>
    match a with
    | .success v => (.ok v, [])
    | .status429 ra =>
      if retries ≥ maxRetries then (.error (), [])
      else
        match ra with
        | some s =>
          if isDigitStr s then
            let d := ((digitsToNat s : ℕ) : ℚ)
            let out := requestWithBackoff maxRetries maxDelay jitters rest (retries + 1) d jIdx
            (out.1, d :: out.2)
          else
            let d := nextBackoffDelay maxDelay delay (jitters jIdx)
            let out := requestWithBackoff maxRetries maxDelay jitters rest (retries + 1) d (jIdx + 1)
            (out.1, d :: out.2)
        | none =>
          let d := nextBackoffDelay maxDelay delay (jitters jIdx)
          let out := requestWithBackoff maxRetries maxDelay jitters rest (retries + 1) d (jIdx + 1)
          (out.1, d :: out.2)
    | .raised _ =>
      if retries < maxRetries then
        let d := nextBackoffDelay maxDelay delay (jitters jIdx)
        let out := requestWithBackoff maxRetries maxDelay jitters rest (retries + 1) d (jIdx + 1)
        (out.1, d :: out.2)
      else (.error (), [])

/-- Delay state after `k` applications of the backoff formula, starting
from `base_delay` (the sequence of computed delays for consecutive
429-without-header or transient-error iterations). -/
def backoffDelaySeq (base maxDelay : ℚ) (jitters : ℕ → ℚ) : ℕ → ℚ
  | 0 => base
  | k + 1 => nextBackoffDelay maxDelay (backoffDelaySeq base maxDelay jitters k) (jitters k)

/-- Sleep trace the spec's 429 formula predicts for `k` consecutive
429 responses without a usable Retry-After header, starting from delay
state `prev` and jitter index `i`: each delay is
`min(max_delay, previous * 2 * jitter)` and becomes the next `previous`.
This definition follows the spec's words, for comparison with the
loop embedding. -/
def spec429Delays (maxDelay : ℚ) (jitters : ℕ → ℚ) : ℚ → ℕ → ℕ → List ℚ
  | _, _, 0 => []
  | prev, i, k + 1 =>
    let d := min maxDelay (prev * 2 * jitters i)
    d :: spec429Delays maxDelay jitters d (i + 1) k

/-! Concrete inputs used by the evaluation theorems below. -/

/-- Well-formed backlog entry A (newest; tag without spaces, so the
tag-line parser itself is not the obstacle). -/
def entA : Entry :=
  ⟨("A").toList, ("S").toList, ("u1").toList, ("sa").toList,
   ⟨2024, 1, 2, 0, 0, 0⟩, ("2024-01-02 00:00:00Z").toList, none, ("[TAG]").toList⟩

/-- Well-formed backlog entry B (older). -/
def entB : Entry :=
  ⟨("B").toList, ("S").toList, ("u2").toList, ("sb").toList,
   ⟨2024, 1, 1, 0, 0, 0⟩, ("2024-01-01 00:00:00Z").toList, none, ("[TAG]").toList⟩

/-- Remote dataset with no documents: every page is empty, so every range
worker stops early with no new entries. -/
def emptyDataset : ℕ → List Item := fun _ => []

/-- One full harvester run against the empty dataset with range `0-0`,
default thread count and batch size, and a writable output file. -/
def c1Run (c : Option Str) : MainResult :=
  runMain emptyDataset (("0-0").toList) 4 100 true c

/-- Initial backlog file for the idempotence run: the renderer's own
output for entries A and B. -/
def c1File0 : Str := formatBacklog [entA, entB] DEFAULT_TAG

/-- New-side entry with URL `u` and title `N1`. -/
def entN1 : Entry :=
  ⟨("N1").toList, ("S").toList, ("u").toList, ("s1").toList,
   ⟨2024, 1, 2, 0, 0, 0⟩, ("2024-01-02 00:00:00Z").toList, none, ("[TAG]").toList⟩

/-- New-side entry sharing URL `u` but with title `N2`. -/
def entN2 : Entry :=
  ⟨("N2").toList, ("S").toList, ("u").toList, ("s2").toList,
   ⟨2024, 1, 1, 0, 0, 0⟩, ("2024-01-01 00:00:00Z").toList, none, ("[TAG]").toList⟩

/-- Temporary-file block with URL `u1` and title `T`, in the exact shape
`process_page_range` writes. -/
def tmpBlock1 : Str :=
  ("[FEDERAL REGISTER PAGE 30-40] 2024-01-01 00:00:00Z | T\nSource: Federal Register\nURL: u1\nsummary one\n").toList

/-- Temporary-file block with the fresh URL `u2` but the same title `T`. -/
def tmpBlock2 : Str :=
  ("[FEDERAL REGISTER PAGE 30-40] 2024-01-02 00:00:00Z | T\nSource: Federal Register\nURL: u2\nsummary two\n").toList

/-- Validity of the optional `--date-range` argument as `main` checks it. -/
def dateArgOk : Option Str → Bool
  | none => true
  | some ds => (parseDateRangeRL ds).isSome

/-- Remote dataset for the C9 witness: every page holds the same three
items, so the clamped page size 3 is a full page everywhere. -/
def c9Dataset : ℕ → List Item := fun _ =>
  [⟨("t1").toList, ("S").toList, ("w1").toList, ("c1").toList, ⟨2024, 1, 1, 0, 0, 0⟩⟩,
   ⟨("t2").toList, ("S").toList, ("w2").toList, ("c2").toList, ⟨2024, 1, 1, 0, 0, 0⟩⟩,
   ⟨("t3").toList, ("S").toList, ("w3").toList, ("c3").toList, ⟨2024, 1, 1, 0, 0, 0⟩⟩]

instance : Inhabited Entry :=
  ⟨⟨[], [], [], [], ⟨1970, 1, 1, 0, 0, 0⟩, [], none, []⟩⟩

/-- Well-formedness of the `combined` dictionary: keys are duplicate-free
and every stored entry's URL is its (nonempty) key. -/
def DictWF (m : Dict) : Prop :=
  (m.map Prod.fst).Nodup ∧ ∀ p ∈ m, p.2.url = p.1 ∧ p.1 ≠ []

/-- Rewrite an entry's title, leaving everything else (in particular URL
and timestamp) unchanged. -/
def retitle (f : Str → Str) (e : Entry) : Entry :=
  { e with title := f e.title }

/-- Map a function over the stored entries of a dict, keys unchanged. -/
def mapValues (h : Entry → Entry) (m : Dict) : Dict :=
  m.map (fun p => (p.1, h p.2))

set_option maxRecDepth 1000000

/-- C1: the full run is not idempotent.  Starting from the backlog the
renderer itself wrote for entries A and B and harvesting an unchanged
(empty) remote dataset, the file after the second run differs from the
file after the first run: `load_existing_entries` splits blocks on the
80-dash divider only, so the header block swallows the first (newest)
entry, whose headline then fails to parse, and each run therefore drops
the newest surviving entry instead of leaving the file unchanged. -/
theorem c1_second_run_changes_backlog :
    (c1Run (c1Run (some c1File0)).content).content ≠ (c1Run (some c1File0)).content := by
  decide

/-- C3: the render/parse round trip loses entries.  Parsing the rendered
backlog of the single well-formed entry A yields no entries at all (the
header and the first block share one divider-separated chunk whose first
line is the `=` bar), and for the two-entry set only the second entry
survives; the first entry's semantic content is not reproduced.  With the
miner's own default tag the loss is total, because `_parse_tag_line`
splits the headline's left side at the first space, so any tag containing
a space never parses. -/
theorem c3_roundtrip_loses_first_entry :
    (loadExistingEntries (some (formatBacklog [entA] DEFAULT_TAG))).entries = [] ∧
    (loadExistingEntries (some (formatBacklog [entA, entB] DEFAULT_TAG))).entries = [entB] := by
  decide

/-- C2 counterexample: with `E = []` the URL of `entN2` does not occur in
`E`, yet `merge_entries` does not contain `entN2` — when the new list
itself repeats a URL only the first entry survives, so the claim's
universal form (merge contains every entry of `N` whose URL does not
occur in `E`) is false. -/
theorem c2_counterexample_duplicate_new_urls :
    mergeEntries [] [entN1, entN2] = [entN1] ∧ entN2 ∉ mergeEntries [] [entN1, entN2] ∧
    entN2.url ∉ ([] : List Entry).map Entry.url := by
  decide

/-- C4 counterexample: in `merge_temp_files` identity is not URL alone.
Two blocks with distinct, unseen URLs but equal titles: only the first is
accepted; the second block's URL `u2` — never seen before — is dropped
purely because its title equals the first block's title. -/
theorem c4_counterexample_title_dedup :
    (mergeTempFiles [tmpBlock1 ++ SEPARATOR_LINE ++ ('\n' :: tmpBlock2)] [] []).newItems.length = 1 ∧
    (mergeTempFiles [tmpBlock1 ++ SEPARATOR_LINE ++ ('\n' :: tmpBlock2)] [] []).existingUrls = [("u1").toList] ∧
    blockUrl tmpBlock2 = ("u2").toList ∧ blockTitle tmpBlock2 = blockTitle tmpBlock1 := by
  decide

/-- C5 counterexample: `parse_index_ranges` is not lenient.  On the
spec's own example input — the inverted segment `50-40` mixed with the
valid segment `10-20` — it raises instead of skipping the bad segment,
so the parallel miner's run aborts even though a valid segment remains;
`parse_range` of the rate-limited miner does skip it. -/
theorem c5_counterexample_strict_parse :
    parseIndexRanges (("50-40,10-20").toList) = .error (.inverted 50 40 (("50-40").toList)) ∧
    parseRangeRL (("50-40,10-20").toList) = [(10, 20)] := by
  decide

/-- C6 counterexample: the parallel miner's `main` exits successfully
both when no ranges could be parsed (it logs the error and returns, and a
returning `main` means process exit code 0) and when the output write
fails. -/
theorem c6_counterexample_exit_zero_on_failure :
    (runMain emptyDataset (("xyz").toList) 4 100 true none).exitCode = 0 ∧
    parseIndexRanges (("xyz").toList) = .error (.invalidIndex (("xyz").toList)) ∧
    (runMain emptyDataset (("0-0").toList) 4 100 false none).exitCode = 0 := by
  decide

/-! Lenient range parsing and exit codes (C5, C6). -/

/-- Accumulator form of `parse_range`'s loop as a `filterMap`. -/
lemma parseRangeRL_foldl (parts : List Str) (acc : List (Int × Int)) :
    (parts.foldl
      (fun acc part =>
        match parseRLSegment part with
        | some r => acc ++ [r]
        | none => acc)
      acc)
      = acc ++ parts.filterMap parseRLSegment := by
  induction parts generalizing acc with
  | nil => simp
  | cons p ps ih =>
    cases h : parseRLSegment p <;> simp [List.foldl_cons, List.filterMap_cons, h, ih]

/-- C5 (amended): the rate-limited miner's `parse_range` is lenient —
it returns exactly the valid segments, in order, each invalid segment
being skipped, and it comes back empty (the only condition under which
its `main` aborts for range-parsing reasons) precisely when every
segment is invalid. -/
theorem c5_parse_range_lenient_skip :
    ∀ rangeStr : Str,
      parseRangeRL rangeStr = (rangeStr.splitOn ',').filterMap parseRLSegment ∧
      (parseRangeRL rangeStr = [] ↔ ∀ part ∈ rangeStr.splitOn ',', parseRLSegment part = none) := by
  intro rangeStr
  have h : parseRangeRL rangeStr = (rangeStr.splitOn ',').filterMap parseRLSegment := by
    unfold parseRangeRL
    simpa using parseRangeRL_foldl (rangeStr.splitOn ',') []
  exact ⟨h, by rw [h]; exact List.filterMap_eq_nil_iff⟩

/-- C5 witness: on the spec's example input the inverted segment is
skipped and harvesting proceeds with the valid one. -/
theorem c5_parse_range_lenient_skip_witness :
    parseRangeRL (("50-40,10-20").toList) = [(10, 20)] :=
  ((c5_parse_range_lenient_skip (("50-40,10-20").toList)).1).trans (by decide)

/-- C6 (amended): the rate-limited miner's process succeeds exactly when
some page range parsed, any supplied date range is valid, and the output
write (attempted only for a nonempty new-item batch) does not raise;
the parallel miner's process instead exits 0 on every path, including
failed range parsing and a failed backlog write. -/
theorem c6_exit_code_characterisation :
    (∀ (pageRanges : Str) (dateArg : Option Str) (hasNewItems writeOk : Bool),
        rateMainExit pageRanges dateArg hasNewItems writeOk = 0 ↔
          (parseRangeRL pageRanges ≠ [] ∧ dateArgOk dateArg = true ∧
            (hasNewItems = true → writeOk = true))) ∧
    (∀ (pageItems : ℕ → List Item) (rangesStr : Str) (numThreads batchSize : Int)
        (writeOk : Bool) (c₀ : Option Str),
        (runMain pageItems rangesStr numThreads batchSize writeOk c₀).exitCode = 0) := by
  constructor
  · intro pageRanges dateArg hasNewItems writeOk
    by_cases hr : parseRangeRL pageRanges = []
    · simp [rateMainExit, hr]
    · cases dateArg with
      | none =>
        cases hasNewItems <;> cases writeOk <;> simp [rateMainExit, hr, dateArgOk]
      | some ds =>
        cases hd : parseDateRangeRL ds <;>
          cases hasNewItems <;> cases writeOk <;>
            simp [rateMainExit, hr, dateArgOk, hd]
  · intro pageItems rangesStr numThreads batchSize writeOk c₀
    cases h : parseIndexRanges rangesStr <;> simp only [runMain, h] <;> split_ifs <;> rfl

/-- C6 witness: a run with a valid range, no date filter and a working
write exits 0. -/
theorem c6_exit_code_characterisation_witness :
    rateMainExit (("30-40").toList) none false true = 0 :=
  (c6_exit_code_characterisation.1 (("30-40").toList) none false true).mpr
    ⟨by decide, by decide, by decide⟩

/-! Backoff policy (C7, C8). -/

/-- C7: delays after 429 responses.  First clause: for any block of `k`
consecutive 429 responses without a usable Retry-After value followed by
a success, while within the retry budget the loop succeeds and sleeps
exactly the delays `min(max_delay, previous * 2 * jitter)` predicted by
the spec formula, the previous delay starting at the current delay state
(`base_delay` at loop entry).  Second clause: a 429 response carrying an
all-digit Retry-After value makes the loop sleep exactly that many
seconds before the next attempt, and that value becomes the new delay
state. -/
theorem c7_429_delay_computation :
    (∀ (maxRetries : ℕ) (maxDelay : ℚ) (jitters : ℕ → ℚ) (k v : ℕ)
        (rest : List AttemptResult) (retries : ℕ) (delay : ℚ) (jIdx : ℕ),
        retries + k ≤ maxRetries →
        requestWithBackoff maxRetries maxDelay jitters
            (List.replicate k (.status429 none) ++ .success v :: rest) retries delay jIdx
          = (.ok v, spec429Delays maxDelay jitters delay jIdx k)) ∧
    (∀ (maxRetries : ℕ) (maxDelay : ℚ) (jitters : ℕ → ℚ) (s : Str)
        (rest : List AttemptResult) (retries : ℕ) (delay : ℚ) (jIdx : ℕ),
        isDigitStr s = true → retries < maxRetries →
        requestWithBackoff maxRetries maxDelay jitters
            (.status429 (some s) :: rest) retries delay jIdx
          = ((requestWithBackoff maxRetries maxDelay jitters rest (retries + 1)
                ((digitsToNat s : ℕ) : ℚ) jIdx).1,
             ((digitsToNat s : ℕ) : ℚ) ::
               (requestWithBackoff maxRetries maxDelay jitters rest (retries + 1)
                 ((digitsToNat s : ℕ) : ℚ) jIdx).2)) := by
  have stepNone : ∀ (maxRetries : ℕ) (maxDelay : ℚ) (jitters : ℕ → ℚ)
      (rest : List AttemptResult) (retries : ℕ) (delay : ℚ) (jIdx : ℕ),
      ¬ retries ≥ maxRetries →
      requestWithBackoff maxRetries maxDelay jitters (.status429 none :: rest) retries delay jIdx
        = ((requestWithBackoff maxRetries maxDelay jitters rest (retries + 1)
              (nextBackoffDelay maxDelay delay (jitters jIdx)) (jIdx + 1)).1,
           nextBackoffDelay maxDelay delay (jitters jIdx) ::
             (requestWithBackoff maxRetries maxDelay jitters rest (retries + 1)
               (nextBackoffDelay maxDelay delay (jitters jIdx)) (jIdx + 1)).2) := by
    intro maxRetries maxDelay jitters rest retries delay jIdx h
    simp [requestWithBackoff, h]
  have stepSpec : ∀ (maxDelay : ℚ) (jitters : ℕ → ℚ) (prev : ℚ) (i k : ℕ),
      spec429Delays maxDelay jitters prev i (k + 1)
        = nextBackoffDelay maxDelay prev (jitters i) ::
            spec429Delays maxDelay jitters (nextBackoffDelay maxDelay prev (jitters i)) (i + 1) k :=
    fun _ _ _ _ _ => rfl
  constructor
  · intro maxRetries maxDelay jitters k
    induction k with
    | zero =>
      intro v rest retries delay jIdx _
      simp [requestWithBackoff, spec429Delays]
    | succ k ih =>
      intro v rest retries delay jIdx hk
      have hlt : ¬ retries ≥ maxRetries := by omega
      have ihx := ih v rest (retries + 1) (nextBackoffDelay maxDelay delay (jitters jIdx)) (jIdx + 1)
        (by omega)
      rw [List.replicate_succ, List.cons_append, stepNone maxRetries maxDelay jitters _ _ _ _ hlt,
        ihx, stepSpec]
  · intro maxRetries maxDelay jitters s rest retries delay jIdx hs hlt
    have h : ¬ retries ≥ maxRetries := by omega
    simp [requestWithBackoff, h, hs]

/-- C7 witness: two plain 429s then success with unit jitter, base delay
2 and cap 60 sleep exactly 4 then 8 seconds; a 429 with Retry-After `3`
sleeps exactly 3 seconds. -/
theorem c7_429_delay_computation_witness :
    requestWithBackoff 5 60 (fun _ => 1)
        (List.replicate 2 (.status429 none) ++ .success 7 :: []) 0 2 0 = (.ok 7, [4, 8]) ∧
    requestWithBackoff 5 60 (fun _ => 1)
        (.status429 (some (("3").toList)) :: .success 7 :: []) 0 2 0 = (.ok 7, [3]) := by
  constructor
  · exact (c7_429_delay_computation.1 5 60 (fun _ => 1) 2 7 [] 0 2 0 (by norm_num)).trans
      (by norm_num [spec429Delays])
  · exact (c7_429_delay_computation.2 5 60 (fun _ => 1) (("3").toList) (.success 7 :: []) 0 2 0
      (by decide) (by norm_num)).trans
      (by norm_num [requestWithBackoff, digitsToNat,
        show '3'.toNat - '0'.toNat = 3 from rfl])

/-- Nonnegativity-and-cap invariant of the backoff delay sequence. -/
lemma backoffDelaySeq_invariant (base maxDelay : ℚ) (jitters : ℕ → ℚ)
    (hb : 0 ≤ base) (hbm : base ≤ maxDelay)
    (hj : ∀ i, 3 / 4 ≤ jitters i ∧ jitters i ≤ 5 / 4) :
    ∀ k, 0 ≤ backoffDelaySeq base maxDelay jitters k ∧
      backoffDelaySeq base maxDelay jitters k ≤ maxDelay := by
  intro k
  induction k with
  | zero => exact ⟨hb, hbm⟩
  | succ k ih =>
    have hmd : (0 : ℚ) ≤ maxDelay := le_trans hb hbm
    have hjk := hj k
    have hprod : 0 ≤ backoffDelaySeq base maxDelay jitters k * 2 * jitters k := by
      have : (0 : ℚ) ≤ jitters k := by linarith [hjk.1]
      have h2 : 0 ≤ backoffDelaySeq base maxDelay jitters k * 2 := by linarith [ih.1]
      exact mul_nonneg h2 this
    exact ⟨le_min hmd hprod, min_le_left _ _⟩

/-- C8: backoff monotonicity and cap.  For any jitter realisation inside
the band `[0.75, 1.25]` and a configuration whose base delay is
nonnegative and no larger than the cap, every computed delay in a run of
consecutive 429s without Retry-After is at least the previous delay
(pointwise, hence also in expectation) and never exceeds `max_delay`. -/
theorem c8_backoff_monotone_and_capped (base maxDelay : ℚ) (jitters : ℕ → ℚ)
    (hb : 0 ≤ base) (hbm : base ≤ maxDelay)
    (hj : ∀ i, 3 / 4 ≤ jitters i ∧ jitters i ≤ 5 / 4) :
    ∀ k, backoffDelaySeq base maxDelay jitters k ≤ backoffDelaySeq base maxDelay jitters (k + 1) ∧
      backoffDelaySeq base maxDelay jitters (k + 1) ≤ maxDelay := by
  intro k
  have inv := backoffDelaySeq_invariant base maxDelay jitters hb hbm hj k
  have hjk := hj k
  constructor
  · show backoffDelaySeq base maxDelay jitters k ≤
      nextBackoffDelay maxDelay (backoffDelaySeq base maxDelay jitters k) (jitters k)
    refine le_min inv.2 ?_
    have h1 : (1 : ℚ) ≤ 2 * jitters k := by linarith [hjk.1]
    calc backoffDelaySeq base maxDelay jitters k
        = backoffDelaySeq base maxDelay jitters k * 1 := by ring
      _ ≤ backoffDelaySeq base maxDelay jitters k * (2 * jitters k) :=
          mul_le_mul_of_nonneg_left h1 inv.1
      _ = backoffDelaySeq base maxDelay jitters k * 2 * jitters k := by ring
  · exact min_le_left _ _

/-- C8 witness: with base delay 2, cap 60 and unit jitters the second
computed delay is at least the first and stays at most 60. -/
theorem c8_backoff_monotone_and_capped_witness :
    backoffDelaySeq 2 60 (fun _ => 1) 1 ≤ backoffDelaySeq 2 60 (fun _ => 1) 2 ∧
    backoffDelaySeq 2 60 (fun _ => 1) 2 ≤ 60 :=
  c8_backoff_monotone_and_capped 2 60 (fun _ => 1) (by norm_num) (by norm_num)
    (fun _ => by norm_num) 1

/-! Partition completeness of the paginated fetcher (C9). -/

/-- Effect of the inner item loop on the ghost coverage and the offset:
every index of the take window is recorded as consumed (whether or not
the item was deduplicated), and the offset is untouched (the Python loop
adds the take count only afterwards). -/
lemma takeStep_covered_current (items : List Item) (si page ps so eo : ℕ)
    (s : RangeState) (k : ℕ) :
    (takeStep items si page ps so eo s k).covered
      = s.covered ++ [(ps + (si + k), page, si + k)] ∧
    (takeStep items si page ps so eo s k).current = s.current := by
  constructor <;> (unfold takeStep; dsimp only; split <;> rfl)

lemma takeLoop_covered_current (items : List Item) (si page ps so eo : ℕ) :
    ∀ (tc : ℕ) (s : RangeState),
      (takeLoop items si tc page ps so eo s).covered
        = s.covered ++ (List.range tc).map (fun k => (ps + (si + k), page, si + k)) ∧
      (takeLoop items si tc page ps so eo s).current = s.current := by
  intro tc
  induction tc with
  | zero => intro s; simp [takeLoop]
  | succ tc ih =>
    intro s
    have e : takeLoop items si (tc + 1) page ps so eo s
        = takeStep items si page ps so eo (takeLoop items si tc page ps so eo s) tc := by
      unfold takeLoop
      rw [List.range_succ, List.foldl_append, List.foldl_cons, List.foldl_nil]
    obtain ⟨hc, hcur⟩ := ih s
    obtain ⟨sc, scur⟩ :=
      takeStep_covered_current items si page ps so eo (takeLoop items si tc page ps so eo s) tc
    rw [e, sc, scur, hc, hcur]
    simp [List.range_succ]

/-- Once the offset is past the range end the loop returns its state
unchanged, whatever fuel is left. -/
lemma processLoop_exit (pageItems : ℕ → List Item) (p endOff startOff : ℕ)
    (fuel : ℕ) (s : RangeState) (h : s.current > endOff) :
    processLoop pageItems p endOff startOff fuel s = s := by
  cases fuel with
  | zero => rfl
  | succ fuel => simp [processLoop, h]

/-- One full-page iteration of the fetch loop: with the offset inside the
range and the fetched page full, the loop takes
`min(p - current % p, endOff - current + 1)` items starting at in-page
position `current % p` of page `current / p + 1`, advances the offset by
that count, and continues. -/
lemma processLoop_step (pageItems : ℕ → List Item) (p endOff startOff fuel : ℕ)
    (s : RangeState) (hp : 1 ≤ p) (hc : s.current ≤ endOff)
    (hlen : (pageItems (s.current / p + 1)).length = p) :
    processLoop pageItems p endOff startOff (fuel + 1) s
      = processLoop pageItems p endOff startOff fuel
          { takeLoop (pageItems (s.current / p + 1)) (s.current % p)
              (min (p - s.current % p) (endOff - s.current + 1))
              (s.current / p + 1) (s.current / p * p) startOff endOff s
            with current :=
              s.current + min (p - s.current % p) (endOff - s.current + 1) } := by
  have hmd := Nat.mod_add_div' s.current p
  have hmodlt : s.current % p < p := Nat.mod_lt _ (by omega)
  have hguard : ¬ (s.current > endOff) := by omega
  have hps : (s.current / p + 1 - 1) * p = s.current / p * p := by simp
  have hsi : max 0 (s.current - s.current / p * p) = s.current % p := by
    omega
  have htc0 : ¬ (min (p - s.current % p) (endOff - s.current + 1) = 0) := by
    omega
  simp only [processLoop]
  rw [if_neg hguard]
  rw [hps, hsi, hlen]
  rw [if_neg (by omega : ¬ (p = 0))]
  rw [if_neg (by omega : ¬ (s.current % p ≥ p))]
  rw [if_neg htc0]
  rw [if_neg (lt_irrefl p)]
  rw [(takeLoop_covered_current (pageItems (s.current / p + 1)) (s.current % p)
      (s.current / p + 1) (s.current / p * p) startOff endOff
      (min (p - s.current % p) (endOff - s.current + 1)) s).2]

/-- Page arithmetic for an offset inside the current page's window. -/
lemma page_window_arith (n p k tc : ℕ) (hp : 1 ≤ p) (hk : k < tc)
    (htc : tc ≤ p - n % p) :
    (n + k) / p = n / p ∧ (n + k) % p = n % p + k := by
  have hmd := Nat.mod_add_div' n p
  have hmodlt : n % p < p := Nat.mod_lt _ (by omega)
  have hdiv : (n + k) / p = n / p := by
    refine Nat.div_eq_of_lt_le ?_ ?_
    · omega
    · have : (n / p + 1) * p = n / p * p + p := by ring
      omega
  refine ⟨hdiv, ?_⟩
  have hmd2 := Nat.mod_add_div' (n + k) p
  rw [hdiv] at hmd2
  omega

/-- Main coverage lemma for the fetch loop: with every page full, a loop
started inside the range consumes exactly the offsets from `current` to
`endOff`, reading offset `i` from page `i / p + 1` at in-page position
`i % p`, and leaves the offset at `endOff + 1`. -/
lemma processLoop_full_coverage (pageItems : ℕ → List Item) (p endOff startOff : ℕ)
    (hp : 1 ≤ p) (hfull : ∀ pg, 1 ≤ pg → (pageItems pg).length = p) :
    ∀ (fuel : ℕ) (s : RangeState), s.current ≤ endOff → endOff + 1 - s.current ≤ fuel →
      (processLoop pageItems p endOff startOff fuel s).covered
        = s.covered ++ (List.range' s.current (endOff + 1 - s.current)).map
            (fun i => (i, i / p + 1, i % p)) ∧
      (processLoop pageItems p endOff startOff fuel s).current = endOff + 1 := by
  intro fuel
  induction fuel with
  | zero => intro s hc hf; omega
  | succ fuel ih =>
    intro s hc hf
    have hlen : (pageItems (s.current / p + 1)).length = p :=
      hfull _ (Nat.le_add_left 1 _)
    have hmd := Nat.mod_add_div' s.current p
    have hmodlt : s.current % p < p := Nat.mod_lt _ (by omega)
    set n := s.current with hn
    set tc := min (p - n % p) (endOff - n + 1) with htc
    have htc1 : 1 ≤ tc := by omega
    have htcle : tc ≤ p - n % p := by omega
    rw [processLoop_step pageItems p endOff startOff fuel s hp hc hlen]
    set s₁ : RangeState :=
      { takeLoop (pageItems (n / p + 1)) (n % p) tc (n / p + 1) (n / p * p) startOff endOff s
        with current := n + tc } with hs₁
    have hcov₁ : s₁.covered
        = s.covered ++ (List.range' n tc).map (fun i => (i, i / p + 1, i % p)) := by
      have htl := (takeLoop_covered_current (pageItems (n / p + 1)) (n % p)
        (n / p + 1) (n / p * p) startOff endOff tc s).1
      have : s₁.covered = (takeLoop (pageItems (n / p + 1)) (n % p) tc (n / p + 1)
          (n / p * p) startOff endOff s).covered := rfl
      rw [this, htl]
      congr 1
      rw [List.range'_eq_map_range]
      rw [List.map_map]
      refine List.map_congr_left ?_
      intro k hk
      have hklt : k < tc := List.mem_range.mp hk
      obtain ⟨hdiv, hmod⟩ := page_window_arith n p k tc hp hklt htcle
      simp only [Function.comp]
      refine Prod.ext ?_ (Prod.ext ?_ ?_) <;> simp [hdiv, hmod]
      · omega
    have hcur₁ : s₁.current = n + tc := rfl
    by_cases hdone : n + tc > endOff
    · have htceq : tc = endOff + 1 - n := by omega
      rw [processLoop_exit pageItems p endOff startOff fuel s₁ (by omega)]
      refine ⟨?_, by omega⟩
      rw [hcov₁, htceq]
    · have hrec := ih s₁ (by omega) (by omega)
      refine ⟨?_, hrec.2⟩
      rw [hrec.1, hcov₁, hcur₁]
      rw [List.append_assoc]
      congr 1
      rw [← List.map_append]
      congr 1
      have hsplit : List.range' n tc ++ List.range' (n + tc) (endOff + 1 - (n + tc))
          = List.range' n (endOff + 1 - n) := by
        have := List.range'_append n tc (endOff + 1 - (n + tc)) 1
        simp only [one_mul, Nat.mul_one] at this
        rw [this]
        congr 1
        omega
      exact hsplit

/-- C9: partition completeness.  For an index range `[a, b]` with
`a ≤ b`, when fetches do not raise (fetch is a pure page function here)
and the remote source yields a full page of parseable items for every
requested page, `process_range` covers exactly the `b - a + 1` offsets
`a, …, b`, reading offset `i` from page `i / p + 1` (with `p` the
clamped page size) at in-page position `i % p` — which is
`max(0, current_offset - page_start_offset)` for the first offset taken
from a page — taking `min(available, remaining)` items per page, and
finishes with the offset just past the range end (no early stop). -/
theorem c9_partition_completeness (pageItems : ℕ → List Item) (a b batchSize : ℕ)
    (seen : List Str) (hab : a ≤ b)
    (hfull : ∀ pg, 1 ≤ pg → (pageItems pg).length = max 1 (min batchSize PAGE_SIZE_CAP)) :
    (processRange pageItems (a, b) batchSize seen).covered
      = (List.range' a (b + 1 - a)).map
          (fun i => (i, i / max 1 (min batchSize PAGE_SIZE_CAP) + 1,
                     i % max 1 (min batchSize PAGE_SIZE_CAP))) ∧
    (processRange pageItems (a, b) batchSize seen).current = b + 1 := by
  have h := processLoop_full_coverage pageItems (max 1 (min batchSize PAGE_SIZE_CAP)) b a
    (le_max_left _ _) hfull (b + 1 - a) ⟨a, seen, [], []⟩ hab (le_refl _)
  unfold processRange
  simpa using h

/-- C9 witness: range `1-4` with page size 3 covers offsets 1-4, read
from pages 1 and 2 at the expected in-page positions. -/
theorem c9_partition_completeness_witness :
    (processRange c9Dataset (1, 4) 3 []).covered
      = [(1, 1, 1), (2, 1, 2), (3, 2, 0), (4, 2, 1)] ∧
    (processRange c9Dataset (1, 4) 3 []).current = 5 := by
  have h := c9_partition_completeness c9Dataset 1 4 3 [] (by decide) (fun pg _ => rfl)
  exact ⟨h.1.trans (by decide), h.2⟩

/-! Merge invariants (C2, C4, C10): association-list lemmas for the
`combined` dictionary and permutation lemmas for the stable sort. -/

lemma dictHasKey_iff (m : Dict) (k : Str) :
    dictHasKey m k = true ↔ k ∈ m.map Prod.fst := by
  simp [dictHasKey, List.any_eq_true, List.mem_map, beq_iff_eq]

lemma insertDescBy_perm (x : Entry) (l : List Entry) :
    (insertDescBy x l).Perm (x :: l) := by
  induction l with
  | nil => exact List.Perm.refl _
  | cons y ys ih =>
    by_cases h : x.datetime.key ≤ y.datetime.key
    · simp only [insertDescBy, h, if_true]
      exact (ih.cons y).trans (List.Perm.swap x y ys)
    · simp only [insertDescBy, h, if_false]
      exact List.Perm.refl _

lemma sortEntriesDesc_foldl_perm :
    ∀ (l acc : List Entry),
      (l.foldl (fun acc x => insertDescBy x acc) acc).Perm (acc ++ l) := by
  intro l
  induction l with
  | nil => intro acc; simp
  | cons x xs ih =>
    intro acc
    have h1 := ih (insertDescBy x acc)
    have h2 : (insertDescBy x acc ++ xs).Perm (acc ++ x :: xs) := by
      refine List.Perm.trans (List.Perm.append_right xs (insertDescBy_perm x acc)) ?_
      have : (x :: acc).Perm (acc ++ [x]) := (List.perm_append_singleton x acc).symm
      refine List.Perm.trans (List.Perm.append_right xs this) ?_
      simp
    rw [List.foldl_cons]
    exact h1.trans h2

lemma sortEntriesDesc_perm (l : List Entry) : (sortEntriesDesc l).Perm l := by
  have := sortEntriesDesc_foldl_perm l []
  simpa [sortEntriesDesc] using this

/-- An in-place dict update leaves the key list unchanged. -/
lemma dictSet_update_keys (m : Dict) (k : Str) (v : Entry) :
    ((m.map fun p => if p.1 == k then (k, v) else p).map Prod.fst) = m.map Prod.fst := by
  rw [List.map_map]
  refine List.map_congr_left ?_
  intro p _
  by_cases hpk : p.1 = k
  · simp [Function.comp, hpk]
  · simp [Function.comp, beq_eq_false_iff_ne.mpr hpk]

lemma mem_keys_dictSet (m : Dict) (k : Str) (v : Entry) (u : Str) :
    u ∈ (dictSet m k v).map Prod.fst ↔ u ∈ m.map Prod.fst ∨ u = k := by
  unfold dictSet
  by_cases h : dictHasKey m k
  · rw [if_pos h, dictSet_update_keys]
    have hk : k ∈ m.map Prod.fst := (dictHasKey_iff m k).mp h
    constructor
    · exact fun hm => Or.inl hm
    · rintro (hm | rfl)
      · exact hm
      · exact hk
  · rw [if_neg h]
    simp [eq_comm]

lemma dictSet_WF (m : Dict) (k : Str) (v : Entry) (hm : DictWF m)
    (hv : v.url = k) (hk : k ≠ []) : DictWF (dictSet m k v) := by
  unfold dictSet
  by_cases h : dictHasKey m k
  · rw [if_pos h]
    refine ⟨by rw [dictSet_update_keys]; exact hm.1, ?_⟩
    intro q hq
    obtain ⟨p, hp, hpe⟩ := List.mem_map.mp hq
    by_cases hpk : p.1 = k
    · rw [if_pos (beq_iff_eq.mpr hpk)] at hpe
      exact hpe ▸ ⟨hv, hk⟩
    · rw [if_neg (by simp [beq_eq_false_iff_ne.mpr hpk])] at hpe
      exact hpe ▸ hm.2 p hp
  · rw [if_neg h]
    constructor
    · rw [List.map_append]
      refine List.Nodup.append hm.1 (by simp) ?_
      intro u hu hu'
      simp only [List.map_cons, List.map_nil, List.mem_singleton] at hu'
      exact (by simpa [dictHasKey_iff] using h : k ∉ m.map Prod.fst) (hu' ▸ hu)
    · intro q hq
      rcases List.mem_append.mp hq with hq | hq
      · exact hm.2 q hq
      · simp only [List.mem_singleton] at hq
        exact hq ▸ ⟨hv, hk⟩

lemma foldl_mergeExistingStep_WF :
    ∀ (existing : List Entry) (m : Dict), DictWF m →
      DictWF (existing.foldl mergeExistingStep m) := by
  intro existing
  induction existing with
  | nil => intro m hm; exact hm
  | cons e es ih =>
    intro m hm
    rw [List.foldl_cons]
    refine ih _ ?_
    unfold mergeExistingStep
    by_cases he : e.url = []
    · rw [if_neg (by simp [he])]
      exact hm
    · rw [if_pos (by simp [he])]
      exact dictSet_WF m e.url e hm rfl he

lemma foldl_mergeNewStep_WF :
    ∀ (newEntries : List Entry) (m : Dict), DictWF m →
      DictWF (newEntries.foldl mergeNewStep m) := by
  intro newEntries
  induction newEntries with
  | nil => intro m hm; exact hm
  | cons e es ih =>
    intro m hm
    rw [List.foldl_cons]
    refine ih _ ?_
    unfold mergeNewStep
    by_cases hc : e.url = [] ∨ dictHasKey m e.url
    · rw [if_pos hc]
      exact hm
    · rw [if_neg hc]
      push_neg at hc
      constructor
      · rw [List.map_append]
        refine List.Nodup.append hm.1 (by simp) ?_
        intro u hu hu'
        simp only [List.map_cons, List.map_nil, List.mem_singleton] at hu'
        have : e.url ∉ m.map Prod.fst := by
          intro hmem
          exact hc.2 ((dictHasKey_iff m e.url).mpr hmem)
        exact this (hu' ▸ hu)
      · intro q hq
        rcases List.mem_append.mp hq with hq | hq
        · exact hm.2 q hq
        · simp only [List.mem_singleton] at hq
          exact hq ▸ ⟨rfl, hc.1⟩

lemma mem_keys_foldl_mergeExistingStep :
    ∀ (existing : List Entry) (m : Dict) (u : Str),
      u ∈ (existing.foldl mergeExistingStep m).map Prod.fst ↔
        u ∈ m.map Prod.fst ∨ (u ≠ [] ∧ u ∈ existing.map Entry.url) := by
  intro existing
  induction existing with
  | nil => intro m u; simp
  | cons e es ih =>
    intro m u
    rw [List.foldl_cons]
    rw [ih]
    unfold mergeExistingStep
    by_cases he : e.url = []
    · rw [if_neg (by simp [he])]
      simp only [List.map_cons, List.mem_cons]
      constructor
      · rintro (hm | h)
        · exact Or.inl hm
        · exact Or.inr ⟨h.1, Or.inr h.2⟩
      · rintro (hm | ⟨hu, (rfl | hmem)⟩)
        · exact Or.inl hm
        · exact absurd he hu
        · exact Or.inr ⟨hu, hmem⟩
    · rw [if_pos (by simp [he])]
      rw [mem_keys_dictSet]
      simp only [List.map_cons, List.mem_cons]
      constructor
      · rintro ((hm | rfl) | h)
        · exact Or.inl hm
        · exact Or.inr ⟨he, Or.inl rfl⟩
        · exact Or.inr ⟨h.1, Or.inr h.2⟩
      · rintro (hm | ⟨hu, (rfl | hmem)⟩)
        · exact Or.inl (Or.inl hm)
        · exact Or.inl (Or.inr rfl)
        · exact Or.inr ⟨hu, hmem⟩

lemma mem_keys_foldl_mergeNewStep :
    ∀ (newEntries : List Entry) (m : Dict) (u : Str),
      u ∈ (newEntries.foldl mergeNewStep m).map Prod.fst ↔
        u ∈ m.map Prod.fst ∨ (u ≠ [] ∧ u ∈ newEntries.map Entry.url) := by
  intro newEntries
  induction newEntries with
  | nil => intro m u; simp
  | cons e es ih =>
    intro m u
    rw [List.foldl_cons, ih]
    unfold mergeNewStep
    by_cases hc : e.url = [] ∨ dictHasKey m e.url
    · rw [if_pos hc]
      simp only [List.map_cons, List.mem_cons]
      constructor
      · rintro (hm | h)
        · exact Or.inl hm
        · exact Or.inr ⟨h.1, Or.inr h.2⟩
      · rintro (hm | ⟨hu, (rfl | hmem)⟩)
        · exact Or.inl hm
        · rcases hc with hc | hc
          · exact absurd hc hu
          · exact Or.inl ((dictHasKey_iff m e.url).mp hc)
        · exact Or.inr ⟨hu, hmem⟩
    · rw [if_neg hc]
      push_neg at hc
      simp only [List.map_append, List.map_cons, List.map_nil, List.mem_append,
        List.mem_singleton, List.mem_cons, List.not_mem_nil, or_false]
      constructor
      · rintro ((hm | rfl) | h)
        · exact Or.inl hm
        · exact Or.inr ⟨hc.1, Or.inl rfl⟩
        · exact Or.inr ⟨h.1, Or.inr h.2⟩
      · rintro (hm | ⟨hu, (rfl | hmem)⟩)
        · exact Or.inl (Or.inl hm)
        · exact Or.inl (Or.inr rfl)
        · exact Or.inr ⟨hu, hmem⟩

/-- Stored pairs survive the new-entry loop (it only appends). -/
lemma mem_foldl_mergeNewStep_of_mem :
    ∀ (newEntries : List Entry) (m : Dict) (p : Str × Entry), p ∈ m →
      p ∈ newEntries.foldl mergeNewStep m := by
  intro newEntries
  induction newEntries with
  | nil => intro m p hp; exact hp
  | cons e es ih =>
    intro m p hp
    rw [List.foldl_cons]
    refine ih _ p ?_
    unfold mergeNewStep
    by_cases hc : e.url = [] ∨ dictHasKey m e.url
    · rw [if_pos hc]; exact hp
    · rw [if_neg hc]; exact List.mem_append_left _ hp

/-- A new entry with a fresh nonempty URL (URLs inside the new list being
duplicate-free) ends up stored under its URL. -/
lemma mem_foldl_mergeNewStep_new :
    ∀ (newEntries : List Entry) (m : Dict) (n : Entry), n ∈ newEntries →
      n.url ≠ [] → (newEntries.map Entry.url).Nodup → n.url ∉ m.map Prod.fst →
      (n.url, n) ∈ newEntries.foldl mergeNewStep m := by
  intro newEntries
  induction newEntries with
  | nil => intro m n hn; exact absurd hn (List.not_mem_nil n)
  | cons e es ih =>
    intro m n hn hurl hnd hfresh
    rw [List.foldl_cons]
    rcases List.mem_cons.mp hn with rfl | hmem
    · have hc : ¬ (n.url = [] ∨ dictHasKey m n.url) := by
        push_neg
        exact ⟨hurl, by simp [dictHasKey_iff, hfresh]⟩
      rw [show mergeNewStep m n = m ++ [(n.url, n)] by unfold mergeNewStep; rw [if_neg hc]]
      exact mem_foldl_mergeNewStep_of_mem es _ _ (List.mem_append_right _ (by simp))
    · have hnd' : (es.map Entry.url).Nodup := (List.nodup_cons.mp hnd).2
      have hne : n.url ≠ e.url := by
        intro heq
        exact (List.nodup_cons.mp hnd).1 (heq ▸ List.mem_map_of_mem Entry.url hmem)
      refine ih _ n hmem hurl hnd' ?_
      unfold mergeNewStep
      by_cases hc : e.url = [] ∨ dictHasKey m e.url
      · rw [if_pos hc]; exact hfresh
      · rw [if_neg hc]
        rw [List.map_append]
        simp only [List.mem_append, List.map_cons, List.map_nil, List.mem_singleton]
        rintro (hm | hm)
        · exact hfresh hm
        · exact hne hm

/-- URLs of the dict's values are exactly its keys (given
well-formedness). -/
lemma values_map_url (m : Dict) (hm : ∀ p ∈ m, p.2.url = p.1) :
    (m.map Prod.snd).map Entry.url = m.map Prod.fst := by
  rw [List.map_map]
  exact List.map_congr_left (fun p hp => hm p hp)

/-- The merged dictionary of `merge_entries` is well-formed. -/
lemma mergeDict_WF (existing newEntries : List Entry) :
    DictWF (mergeDictNew (mergeDictExisting existing) newEntries) :=
  foldl_mergeNewStep_WF newEntries _
    (foldl_mergeExistingStep_WF existing [] ⟨List.nodup_nil, by simp⟩)

/-- URLs of the merged backlog are duplicate-free. -/
lemma mergeEntries_urls_nodup (existing newEntries : List Entry) :
    ((mergeEntries existing newEntries).map Entry.url).Nodup := by
  have hwf := mergeDict_WF existing newEntries
  have hperm := sortEntriesDesc_perm
    ((mergeDictNew (mergeDictExisting existing) newEntries).map Prod.snd)
  have hmap := hperm.map Entry.url
  rw [values_map_url _ (fun p hp => (hwf.2 p hp).1)] at hmap
  exact hmap.nodup_iff.mpr hwf.1

/-- Membership in the merged backlog's URL list is decided by the input
URL lists alone. -/
lemma mem_mergeEntries_url_iff (existing newEntries : List Entry) (u : Str) :
    u ∈ (mergeEntries existing newEntries).map Entry.url ↔
      (u ≠ [] ∧ (u ∈ existing.map Entry.url ∨ u ∈ newEntries.map Entry.url)) := by
  have hwf := mergeDict_WF existing newEntries
  have hperm := sortEntriesDesc_perm
    ((mergeDictNew (mergeDictExisting existing) newEntries).map Prod.snd)
  have hmap := hperm.map Entry.url
  rw [values_map_url _ (fun p hp => (hwf.2 p hp).1)] at hmap
  rw [show (mergeEntries existing newEntries).map Entry.url
      = (sortEntriesDesc ((mergeDictNew (mergeDictExisting existing) newEntries).map
          Prod.snd)).map Entry.url from rfl]
  rw [hmap.mem_iff]
  unfold mergeDictNew mergeDictExisting
  rw [mem_keys_foldl_mergeNewStep, mem_keys_foldl_mergeExistingStep]
  simp only [List.map_nil, List.not_mem_nil, false_or]
  constructor
  · rintro (⟨hu, hmem⟩ | ⟨hu, hmem⟩)
    · exact ⟨hu, Or.inl hmem⟩
    · exact ⟨hu, Or.inr hmem⟩
  · rintro ⟨hu, (hmem | hmem)⟩
    · exact Or.inl ⟨hu, hmem⟩
    · exact Or.inr ⟨hu, hmem⟩

/-- With duplicate-free URLs, the existing-entry loop is exactly the
URL-keyed index of the entries with nonempty URLs, in order. -/
lemma foldl_mergeExistingStep_eq :
    ∀ (existing : List Entry) (m : Dict), ((existing.map Entry.url).Nodup) →
      (∀ e ∈ existing, e.url ∉ m.map Prod.fst) →
      existing.foldl mergeExistingStep m
        = m ++ (existing.filter (fun e => e.url ≠ [])).map (fun e => (e.url, e)) := by
  intro existing
  induction existing with
  | nil => intro m _ _; simp
  | cons e es ih =>
    intro m hnd hdisj
    rw [List.foldl_cons]
    by_cases he : e.url = []
    · rw [show mergeExistingStep m e = m by
        unfold mergeExistingStep; rw [if_neg (by simp [he])]]
      rw [ih m (List.nodup_cons.mp hnd).2
        (fun e' he' => hdisj e' (List.mem_cons_of_mem e he'))]
      simp [List.filter_cons, he]
    · have hfresh : ¬ dictHasKey m e.url = true := by
        simp only [dictHasKey_iff]
        exact hdisj e (List.mem_cons_self e es)
      rw [show mergeExistingStep m e = m ++ [(e.url, e)] by
        unfold mergeExistingStep dictSet
        rw [if_pos (by simp [he]), if_neg hfresh]]
      rw [ih (m ++ [(e.url, e)]) (List.nodup_cons.mp hnd).2 ?_]
      · rw [List.filter_cons, if_pos (by simp [he])]
        simp
      · intro e' he'
        rw [List.map_append]
        simp only [List.mem_append, List.map_cons, List.map_nil, List.mem_singleton]
        rintro (hm | hm)
        · exact hdisj e' (List.mem_cons_of_mem e he') hm
        · have : e'.url ∈ es.map Entry.url := List.mem_map_of_mem Entry.url he'
          exact (List.nodup_cons.mp hnd).1 (hm ▸ this)

/-- C2 (amended): for entry lists in which no two entries of the existing
list share a URL and no two entries of the new list share a URL,
`merge_entries` is keyed by URL with existing-wins — every existing entry
with a nonempty URL appears in the merged backlog and is the only entry
carrying its URL (so a new entry with the same URL never replaces it and
its summary is preserved), and every new entry whose URL is nonempty and
does not occur among the existing URLs is added. -/
theorem c2_merge_existing_wins :
    ∀ (existing newEntries : List Entry),
      ((existing.map Entry.url).Nodup) → ((newEntries.map Entry.url).Nodup) →
      (∀ e ∈ existing, e.url ≠ [] →
        e ∈ mergeEntries existing newEntries ∧
        ∀ e' ∈ mergeEntries existing newEntries, e'.url = e.url → e' = e) ∧
      (∀ n ∈ newEntries, n.url ≠ [] → n.url ∉ existing.map Entry.url →
        n ∈ mergeEntries existing newEntries) := by
  intro existing newEntries hE hN
  have hmerge : mergeEntries existing newEntries
      = sortEntriesDesc ((mergeDictNew (mergeDictExisting existing) newEntries).map
          Prod.snd) := rfl
  have hperm := sortEntriesDesc_perm
    ((mergeDictNew (mergeDictExisting existing) newEntries).map Prod.snd)
  constructor
  · intro e he hurl
    have hpair : (e.url, e) ∈ mergeDictExisting existing := by
      unfold mergeDictExisting
      rw [foldl_mergeExistingStep_eq existing [] hE (by simp)]
      simp only [List.nil_append]
      refine List.mem_map.mpr ⟨e, ?_, rfl⟩
      rw [List.mem_filter]
      exact ⟨he, by simp [hurl]⟩
    have hpair2 : (e.url, e) ∈ mergeDictNew (mergeDictExisting existing) newEntries :=
      mem_foldl_mergeNewStep_of_mem newEntries _ _ hpair
    have hmem : e ∈ mergeEntries existing newEntries := by
      rw [hmerge]
      exact hperm.mem_iff.mpr (List.mem_map_of_mem Prod.snd hpair2)
    refine ⟨hmem, ?_⟩
    intro e' he' hurl'
    exact List.inj_on_of_nodup_map (mergeEntries_urls_nodup existing newEntries) he' hmem hurl'
  · intro n hn hurl hfresh
    have hkeys1 : n.url ∉ (mergeDictExisting existing).map Prod.fst := by
      unfold mergeDictExisting
      rw [mem_keys_foldl_mergeExistingStep]
      simp only [List.map_nil, List.not_mem_nil, false_or, not_and]
      intro _
      exact hfresh
    have hpair := mem_foldl_mergeNewStep_new newEntries _ n hn hurl hN hkeys1
    rw [hmerge]
    exact hperm.mem_iff.mpr (List.mem_map_of_mem Prod.snd hpair)

/-- C2 witness: an existing entry and a new entry with distinct nonempty
URLs both end up in the merged backlog. -/
theorem c2_merge_existing_wins_witness :
    entA ∈ mergeEntries [entA] [entB] ∧ entB ∈ mergeEntries [entA] [entB] :=
  ⟨((c2_merge_existing_wins [entA] [entB] (by decide) (by decide)).1 entA
      (by decide) (by decide)).1,
   (c2_merge_existing_wins [entA] [entB] (by decide) (by decide)).2 entB
      (by decide) (by decide) (by decide)⟩

/-- Every rendered block contains the URL line of its entry. -/
lemma url_line_mem_entryLines (tag : Str) (e : Entry) :
    (("URL: ").toList ++ e.url) ∈ entryLines tag e := by
  unfold entryLines
  dsimp only
  rcases hb : e.batchMarker with _ | b <;> simp only [hb] <;> split_ifs <;> simp

/-- C10: invariants of the merged backlog.  Every merged entry has a
nonempty URL (URL-less entries are dropped from both sides), no two
merged entries share a URL, and each entry's rendered block carries the
`URL: ` line with that entry's URL — which, by uniqueness, appears in no
other block's URL line. -/
theorem c10_merged_unique_nonempty_urls :
    ∀ (existing newEntries : List Entry) (tag : Str),
      (∀ e ∈ mergeEntries existing newEntries, e.url ≠ []) ∧
      ((mergeEntries existing newEntries).map Entry.url).Nodup ∧
      (∀ e ∈ mergeEntries existing newEntries,
        (("URL: ").toList ++ e.url) ∈ entryLines tag e) := by
  intro existing newEntries tag
  refine ⟨?_, mergeEntries_urls_nodup existing newEntries,
    fun e _ => url_line_mem_entryLines tag e⟩
  intro e he
  have hurl : e.url ∈ (mergeEntries existing newEntries).map Entry.url :=
    List.mem_map_of_mem Entry.url he
  exact ((mem_mergeEntries_url_iff existing newEntries e.url).mp hurl).1

/-- C10 witness: instantiation at a concrete merge. -/
theorem c10_merged_unique_nonempty_urls_witness :
    entA.url ≠ [] ∧ (("URL: ").toList ++ entB.url) ∈ entryLines DEFAULT_TAG entB :=
  ⟨(c10_merged_unique_nonempty_urls [entA] [entB] DEFAULT_TAG).1 entA (by decide),
   (c10_merged_unique_nonempty_urls [entA] [entB] DEFAULT_TAG).2.2 entB (by decide)⟩

/-! Title-independence of the parallel miner's merge (C4). -/

lemma dictHasKey_mapValues (h : Entry → Entry) (m : Dict) (k : Str) :
    dictHasKey (mapValues h m) k = dictHasKey m k := by
  unfold dictHasKey mapValues
  rw [List.any_map]
  rfl

lemma dictSet_mapValues (h : Entry → Entry) (m : Dict) (k : Str) (v : Entry) :
    dictSet (mapValues h m) k (h v) = mapValues h (dictSet m k v) := by
  unfold dictSet
  rw [dictHasKey_mapValues]
  by_cases hk : dictHasKey m k
  · rw [if_pos hk, if_pos hk]
    unfold mapValues
    rw [List.map_map, List.map_map]
    refine List.map_congr_left ?_
    intro p _
    by_cases hpk : p.1 = k
    · simp [Function.comp, hpk]
    · simp [Function.comp, beq_eq_false_iff_ne.mpr hpk]
  · rw [if_neg hk, if_neg hk]
    unfold mapValues
    rw [List.map_append]
    rfl

lemma mergeExistingStep_mapValues (h : Entry → Entry) (hh : ∀ e, (h e).url = e.url)
    (m : Dict) (e : Entry) :
    mergeExistingStep (mapValues h m) (h e) = mapValues h (mergeExistingStep m e) := by
  unfold mergeExistingStep
  rw [hh e]
  by_cases he : e.url = []
  · rw [if_neg (by simp [he]), if_neg (by simp [he])]
  · rw [if_pos (by simp [he]), if_pos (by simp [he])]
    exact dictSet_mapValues h m e.url e

lemma mergeNewStep_mapValues (h : Entry → Entry) (hh : ∀ e, (h e).url = e.url)
    (m : Dict) (e : Entry) :
    mergeNewStep (mapValues h m) (h e) = mapValues h (mergeNewStep m e) := by
  unfold mergeNewStep
  rw [hh e, dictHasKey_mapValues]
  by_cases hc : e.url = [] ∨ dictHasKey m e.url
  · rw [if_pos hc, if_pos hc]
  · rw [if_neg hc, if_neg hc]
    unfold mapValues
    rw [List.map_append]
    rfl

lemma foldl_mergeExistingStep_mapValues (h : Entry → Entry) (hh : ∀ e, (h e).url = e.url) :
    ∀ (existing : List Entry) (m : Dict),
      (existing.map h).foldl mergeExistingStep (mapValues h m)
        = mapValues h (existing.foldl mergeExistingStep m) := by
  intro existing
  induction existing with
  | nil => intro m; rfl
  | cons e es ih =>
    intro m
    rw [List.map_cons, List.foldl_cons, List.foldl_cons,
      mergeExistingStep_mapValues h hh, ih]

lemma foldl_mergeNewStep_mapValues (h : Entry → Entry) (hh : ∀ e, (h e).url = e.url) :
    ∀ (newEntries : List Entry) (m : Dict),
      (newEntries.map h).foldl mergeNewStep (mapValues h m)
        = mapValues h (newEntries.foldl mergeNewStep m) := by
  intro newEntries
  induction newEntries with
  | nil => intro m; rfl
  | cons e es ih =>
    intro m
    rw [List.map_cons, List.foldl_cons, List.foldl_cons,
      mergeNewStep_mapValues h hh, ih]

lemma insertDescBy_map (h : Entry → Entry) (hkey : ∀ e, (h e).datetime = e.datetime) :
    ∀ (x : Entry) (l : List Entry),
      insertDescBy (h x) (l.map h) = (insertDescBy x l).map h := by
  intro x l
  induction l with
  | nil => rfl
  | cons y ys ih =>
    rw [List.map_cons]
    unfold insertDescBy
    rw [hkey x, hkey y]
    by_cases hc : x.datetime.key ≤ y.datetime.key
    · rw [if_pos hc, if_pos hc, ih]
      rfl
    · rw [if_neg hc, if_neg hc]
      rfl

lemma sortEntriesDesc_map (h : Entry → Entry) (hkey : ∀ e, (h e).datetime = e.datetime) :
    ∀ (l acc : List Entry),
      (l.map h).foldl (fun acc x => insertDescBy x acc) (acc.map h)
        = (l.foldl (fun acc x => insertDescBy x acc) acc).map h := by
  intro l
  induction l with
  | nil => intro acc; rfl
  | cons x xs ih =>
    intro acc
    rw [List.map_cons, List.foldl_cons, List.foldl_cons,
      insertDescBy_map h hkey, ih]

lemma mergeEntries_map (h : Entry → Entry) (hh : ∀ e, (h e).url = e.url)
    (hkey : ∀ e, (h e).datetime = e.datetime) (existing newEntries : List Entry) :
    mergeEntries (existing.map h) (newEntries.map h)
      = (mergeEntries existing newEntries).map h := by
  have h1 : mergeDictExisting (existing.map h) = mapValues h (mergeDictExisting existing) := by
    unfold mergeDictExisting
    have := foldl_mergeExistingStep_mapValues h hh existing []
    simpa [mapValues] using this
  have h2 : mergeDictNew (mergeDictExisting (existing.map h)) (newEntries.map h)
      = mapValues h (mergeDictNew (mergeDictExisting existing) newEntries) := by
    unfold mergeDictNew
    rw [h1]
    exact foldl_mergeNewStep_mapValues h hh newEntries _
  have hvals : (mapValues h (mergeDictNew (mergeDictExisting existing) newEntries)).map
      Prod.snd
      = ((mergeDictNew (mergeDictExisting existing) newEntries).map Prod.snd).map h := by
    unfold mapValues
    rw [List.map_map, List.map_map]
    rfl
  show sortEntriesDesc ((mergeDictNew (mergeDictExisting (existing.map h))
      (newEntries.map h)).map Prod.snd)
    = (sortEntriesDesc ((mergeDictNew (mergeDictExisting existing) newEntries).map
        Prod.snd)).map h
  rw [h2, hvals]
  unfold sortEntriesDesc
  exact sortEntriesDesc_map h hkey _ []

/-- C4 (amended): in `parallel_register_miner` the identity key really is
the URL alone.  In the merged backlog no two entries share a URL (for two
records with equal URLs exactly one survives); whether a URL survives
depends only on the input URL lists; retitling every entry changes
nothing about which URLs survive; and in the worker's shared-set dedup an
item is dropped exactly when its URL has already been seen — its title is
never consulted.  In `rate_limited_register_miner.merge_temp_files`,
however, a record with an unseen URL is additionally dropped whenever its
title equals an already-seen title (see the counterexample). -/
theorem c4_url_only_identity_parallel :
    ∀ (existing newEntries : List Entry),
      ((mergeEntries existing newEntries).map Entry.url).Nodup ∧
      (∀ u : Str, u ≠ [] →
        (u ∈ (mergeEntries existing newEntries).map Entry.url ↔
          u ∈ existing.map Entry.url ∨ u ∈ newEntries.map Entry.url)) ∧
      (∀ f : Str → Str,
        (mergeEntries (existing.map (retitle f)) (newEntries.map (retitle f))).map Entry.url
          = (mergeEntries existing newEntries).map Entry.url) ∧
      (∀ (items : List Item) (si page ps so eo k : ℕ) (s : RangeState),
        ((takeStep items si page ps so eo s k).entries = s.entries ↔
          (items.getD (si + k) default).url ∈ s.seen)) := by
  intro existing newEntries
  refine ⟨mergeEntries_urls_nodup existing newEntries, ?_, ?_, ?_⟩
  · intro u hu
    rw [mem_mergeEntries_url_iff]
    constructor
    · exact fun h => h.2
    · exact fun h => ⟨hu, h⟩
  · intro f
    rw [mergeEntries_map (retitle f) (fun _ => rfl) (fun _ => rfl), List.map_map]
    rfl
  · intro items si page ps so eo k s
    unfold takeStep
    dsimp only
    by_cases hm : (items.getD (si + k) default).url ∈ s.seen
    · rw [if_pos hm]
      simpa using hm
    · rw [if_neg hm]
      simpa using hm

/-- C4 witness: a fresh URL from the new side survives the merge. -/
theorem c4_url_only_identity_parallel_witness :
    ("u2").toList ∈ (mergeEntries [entA] [entB]).map Entry.url :=
  ((c4_url_only_identity_parallel [entA] [entB]).2.1 (("u2").toList) (by decide)).mpr
    (Or.inr (by decide))

end FRMiner
